import Mathlib

/-!
Verification of `translateQuests.py` (FtbQuestsTranslationCuda).

The program batch-translates quest files.  Its pure core, embedded here over
`List Char`:

* `safe_translate` (lines 38-71): extracts formatting codes matching the
  regex `&[0-9a-zA-Z]+` into placeholders `<<<1>>>, <<<2>>>, ...`, runs the
  (external) translator on the cleaned text, and restores the codes with
  `str.replace(placeholder, code, 1)` in order.
* `process_file` (lines 85-100): three `re.sub` passes over the file text,
  for `(title:\s*\")(.*?)(\")`, `(subtitle:\s*\")(.*?)(\")` and
  `(description:\s*\[)(.*?)(\])` (the last with DOTALL), each replacing the
  captured body by its safe translation; then (line 102) the output path
  `str(file_path).replace('chapters', 'chapters-translate')`.

The external translation model is a parameter `tr : List Char → List Char`.
Recursive scanners take an explicit fuel argument (always instantiated with
the input length) so that every definition reduces in the kernel.
-/

namespace Quests

/-- Python `[0-9a-zA-Z]`, the character class of the code regex (line 48). -/
def isAlnumAscii (c : Char) : Bool :=
  ('0' ≤ c && c ≤ '9') || ('a' ≤ c && c ≤ 'z') || ('A' ≤ c && c ≤ 'Z')

/-- Python `\s` on the ASCII range: the whitespace accepted by `\s*` in the
field patterns (lines 86, 91, 96). -/
def isPySpace (c : Char) : Bool :=
  c == ' ' || c == '\t' || c == '\n' || c == '\r' || c == '\x0b' || c == '\x0c'

/-- A character the non-greedy `(.*?)` body of a quoted field can contain:
`.` does not match a newline (no DOTALL on lines 86, 91), and the body stops
at the first `"`. -/
def isBodyChar (c : Char) : Bool :=
  !(c == '"') && !(c == '\n')

/-- A character the DOTALL body of the description field can contain: anything
up to the first `]` (line 96). -/
def isDescChar (c : Char) : Bool :=
  !(c == ']')

/-- The head of `t` (when there is one) fails `p`: where a greedy run of
characters satisfying `p` must stop. -/
def headFails (p : Char → Bool) : List Char → Bool
  | [] => true
  | c :: _ => !(p c)

/-- The placeholder `f"<<<{i}>>>"` of lines 54 and 67. -/
def placeholder (i : Nat) : List Char :=
  "<<<".toList ++ (Nat.repr i).toList ++ ">>>".toList

/-- Python `str.replace(old, new, 1)` (line 68): replace the first occurrence
of `old`, leaving the text unchanged when `old` does not occur. -/
def replaceFirst (old new : List Char) : List Char → List Char
  | [] => if old.isPrefixOf ([] : List Char) then new else []
  | c :: r =>
    if old.isPrefixOf (c :: r) then new ++ (c :: r).drop old.length
    else c :: replaceFirst old new r

/-- Whether `pat` occurs as a contiguous substring (used only in statements;
Python's `replace` leaves text without an occurrence unchanged). -/
def occursB (pat : List Char) : List Char → Bool
  | [] => pat.isPrefixOf ([] : List Char)
  | c :: r => pat.isPrefixOf (c :: r) || occursB pat r

/-- Fuelled Python `str.replace(old, new)` with nonempty `old` (line 102):
replace every non-overlapping occurrence left to right. -/
def replaceAllF (old new : List Char) : Nat → List Char → List Char
  | _, [] => []
  | 0, s => s
  | f + 1, c :: r =>
    if old.isPrefixOf (c :: r) && !old.isEmpty then
      new ++ replaceAllF old new f ((c :: r).drop old.length)
    else
      c :: replaceAllF old new f r

/-- Python `str.replace(old, new)` for nonempty `old`. -/
def replaceAll (old new s : List Char) : List Char :=
  replaceAllF old new s.length s

/-- The directory token replaced on line 102. -/
def chaptersTok : List Char := "chapters".toList

/-- The replacement token of line 102. -/
def chaptersTrTok : List Char := "chapters-translate".toList

/-- Line 102: `str(file_path).replace('chapters', 'chapters-translate')`. -/
def output_path (p : List Char) : List Char :=
  replaceAll chaptersTok chaptersTrTok p

/-- Fuelled scanner shared by `re.findall` and `re.sub` on the pattern
`&[0-9a-zA-Z]+` (lines 48 and 59): leftmost, non-overlapping, greedy.  At a
`&` followed by at least one alphanumeric character it consumes the maximal
alphanumeric run as the `n`-th code and emits `placeholder n`; any other
character is copied.  Returns the cleaned text and the codes in order. -/
def extractAuxF : Nat → Nat → List Char → List Char × List (List Char)
  | _, _, [] => ([], [])
  | 0, _, s => (s, [])
  | f + 1, n, c :: r =>
    if c = '&' ∧ r.takeWhile isAlnumAscii ≠ [] then
      let ds := r.takeWhile isAlnumAscii
      let p := extractAuxF f (n + 1) (r.dropWhile isAlnumAscii)
      (placeholder n ++ p.1, ('&' :: ds) :: p.2)
    else
      let p := extractAuxF f n r
      (c :: p.1, p.2)

/-- The scan of `extractAuxF` with the placeholder counter starting at `n`. -/
def extractN (n : Nat) (t : List Char) : List Char × List (List Char) :=
  extractAuxF t.length n t

/-- Lines 48-59: `(cleaned_text, codes)` with `codes = re.findall(...)` and
`cleaned_text = re.sub(..., repl, text)`, placeholders counted from 1. -/
def extract (t : List Char) : List Char × List (List Char) :=
  extractN 1 t

/-- Whether the code regex `&[0-9a-zA-Z]+` matches anywhere in `t`. -/
def hasCodeB : List Char → Bool
  | [] => false
  | c :: r => (c == '&' && !(r.takeWhile isAlnumAscii).isEmpty) || hasCodeB r

/-- Lines 66-68: `for i, code in enumerate(codes, start=i0):
translated = translated.replace(f"<<<{i}>>>", code, 1)`. -/
def restoreAux : Nat → List (List Char) → List Char → List Char
  | _, [], t => t
  | i, code :: cs, t => restoreAux (i + 1) cs (replaceFirst (placeholder i) code t)

/-- The restore loop of lines 66-68 with numbering from 1. -/
def restore (t : List Char) (codes : List (List Char)) : List Char :=
  restoreAux 1 codes t

/-- Lines 38-71, `safe_translate`, with the external model abstracted as
`tr`: extract the codes, translate the cleaned text, restore the codes. -/
def safe_translate (tr : List Char → List Char) (text : List Char) : List Char :=
  restoreAux 1 (extract text).2 (tr (extract text).1)

/-- Attempt of a field pattern `key\s*<opn>(body)<close>` at the start of
`s`, where `bodyP` says which characters the non-greedy body may contain
(for the quoted fields of lines 86 and 91: anything but `"` and newline; for
the DOTALL description field of line 96: anything but `]`).  On success
returns `(group1, body, rest)` where `group1 = key ++ ws ++ [opn]`; the
constant closing group is appended by the caller. -/
def tryDelim (key : List Char) (opn close : Char) (bodyP : Char → Bool)
    (s : List Char) : Option (List Char × List Char × List Char) :=
  if key.isPrefixOf s then
    match (s.drop key.length).dropWhile isPySpace with
    | c :: s3 =>
      if c = opn then
        match s3.dropWhile bodyP with
        | d :: rest =>
          if d = close then
            some (key ++ (s.drop key.length).takeWhile isPySpace ++ [opn],
              s3.takeWhile bodyP, rest)
          else none
        | [] => none
      else none
    | [] => none
  else none

/-- The quoted-field pattern `key\s*\"(.*?)\"` of lines 86 and 91. -/
def tryQuoted (key : List Char) : List Char → Option (List Char × List Char × List Char) :=
  tryDelim key '"' '"' isBodyChar

/-- The DOTALL pattern `key\s*\[(.*?)\]` of line 96. -/
def tryBracket (key : List Char) : List Char → Option (List Char × List Char × List Char) :=
  tryDelim key '[' ']' isDescChar

/-- Fuelled `re.sub` over one field pattern: try a match at every position
left to right; on a match emit `group1 ++ tr body ++ close` and continue
after the match, otherwise copy one character and advance (Python regex
scanning semantics). -/
def subFieldF (try1 : List Char → Option (List Char × List Char × List Char))
    (close : Char) (tr : List Char → List Char) : Nat → List Char → List Char
  | _, [] => []
  | 0, s => s
  | f + 1, c :: r =>
    match try1 (c :: r) with
    | some (g1, b, rest) => g1 ++ tr b ++ close :: subFieldF try1 close tr f rest
    | none => c :: subFieldF try1 close tr f r

/-- One `re.sub` pass for one field pattern. -/
def subField (try1 : List Char → Option (List Char × List Char × List Char))
    (close : Char) (tr : List Char → List Char) (s : List Char) : List Char :=
  subFieldF try1 close tr s.length s

/-- The literal `title:` of the pattern on line 86. -/
def titleKey : List Char := "title:".toList

/-- The literal `subtitle:` of the pattern on line 91. -/
def subtitleKey : List Char := "subtitle:".toList

/-- The literal `description:` of the pattern on line 96. -/
def descKey : List Char := "description:".toList

/-- Lines 85-100 of `process_file`: the three `re.sub` passes over the file
text, in source order (title, then subtitle, then description), each passing
the captured body through `safe_translate`. -/
def processContent (tr : List Char → List Char) (content : List Char) : List Char :=
  subField (tryBracket descKey) ']' (safe_translate tr)
    (subField (tryQuoted subtitleKey) '"' (safe_translate tr)
      (subField (tryQuoted titleKey) '"' (safe_translate tr) content))

/-- `try1` finds no match at any position of `s` (so the `re.sub` pass for
that pattern leaves `s` unchanged). -/
def cleanOf (try1 : List Char → Option (List Char × List Char × List Char)) :
    List Char → Bool
  | [] => true
  | c :: r => (try1 (c :: r)).isNone && cleanOf try1 r

/-- `try1` finds no match starting inside `pre` when scanning `pre ++ X`. -/
def scanNone (try1 : List Char → Option (List Char × List Char × List Char)) :
    List Char → List Char → Bool
  | [], _ => true
  | c :: p, X => (try1 (c :: p ++ X)).isNone && scanNone try1 p X

/-- `pat` is not a prefix at any position strictly inside `pre` when reading
`pre ++ X` (so the first occurrence of `pat` in `pre ++ pat ++ suf` is the
explicit one). -/
def noHit (pat : List Char) : List Char → List Char → Bool
  | [], _ => true
  | c :: p, X => !(pat.isPrefixOf (c :: p ++ X)) && noHit pat p X

/-- The file text `title: "<body>"` used by the spec round-trip property. -/
def mkTitleFile (body : List Char) : List Char :=
  titleKey ++ (' ' :: '"' :: (body ++ '"' :: []))

/-- Modelled from the spec: the `functools.lru_cache(maxsize=4)` state wrapped
around `get_translator` (line 15) — the cache implementation itself is the
Python standard library, not part of this repository.  The cache is a list of
`(language, handle)` pairs, most recently used first; `mk` stands for the
model-and-tokenizer construction of lines 21-24.  Returns the handle, the new
cache, and whether a construction happened.  A hit refreshes recency and
constructs nothing; a miss constructs, inserts in front, and truncates to the
4 most recently used entries, dropping the least recently used. -/
def get_translator {α : Type} (mk : String → α) (cache : List (String × α))
    (lang : String) : α × List (String × α) × Bool :=
  match List.lookup lang cache with
  | some v => (v, (lang, v) :: List.eraseP (fun p => p.1 == lang) cache, false)
  | none => (mk lang, ((lang, mk lang) :: cache).take 4, true)

/-! ### Basic list lemmas -/

theorem isPrefixOf_append_self (l t : List Char) : l.isPrefixOf (l ++ t) = true := by
  simp

theorem isPrefixOf_length_le {l s : List Char} (h : l.isPrefixOf s = true) :
    l.length ≤ s.length := by
  have hp : l <+: s := by simpa using h
  exact hp.length_le

theorem length_dropWhile_le (p : Char → Bool) (l : List Char) :
    (l.dropWhile p).length ≤ l.length := by
  induction l with
  | nil => simp
  | cons c r ih =>
    rw [List.dropWhile_cons]
    split
    · exact Nat.le_succ_of_le ih
    · simp

theorem takeWhile_append_eq (p : Char → Bool) (w t : List Char) (hw : w.all p = true)
    (ht : headFails p t = true) : (w ++ t).takeWhile p = w ∧ (w ++ t).dropWhile p = t := by
  induction w with
  | nil =>
    cases t with
    | nil => simp
    | cons c r =>
      simp only [headFails, Bool.not_eq_true'] at ht
      simp [List.takeWhile_cons, List.dropWhile_cons, ht]
  | cons a w ih =>
    simp only [List.all_cons, Bool.and_eq_true] at hw
    have h2 := ih hw.2
    simp [List.takeWhile_cons, List.dropWhile_cons, hw.1, h2.1, h2.2]

theorem all_takeWhile (p : Char → Bool) (l : List Char) : (l.takeWhile p).all p = true := by
  induction l with
  | nil => rfl
  | cons c r ih =>
    rw [List.takeWhile_cons]
    split
    · simp_all
    · rfl

theorem headFails_dropWhile (p : Char → Bool) (l : List Char) :
    headFails p (l.dropWhile p) = true := by
  induction l with
  | nil => rfl
  | cons c r ih =>
    rw [List.dropWhile_cons]
    split
    · exact ih
    · simp_all [headFails]

theorem mem_of_mem_takeWhile {p : Char → Bool} {l : List Char} {a : Char}
    (h : a ∈ l.takeWhile p) : a ∈ l := by
  induction l with
  | nil => simp at h
  | cons c r ih =>
    rw [List.takeWhile_cons] at h
    split at h
    · rcases List.mem_cons.mp h with h | h
      · simp [h]
      · exact List.mem_cons_of_mem _ (ih h)
    · simp at h

theorem mem_of_mem_dropWhile {p : Char → Bool} {l : List Char} {a : Char}
    (h : a ∈ l.dropWhile p) : a ∈ l := by
  induction l with
  | nil => simp at h
  | cons c r ih =>
    rw [List.dropWhile_cons] at h
    split at h
    · exact List.mem_cons_of_mem _ (ih h)
    · exact h

/-! ### Fuel irrelevance -/

theorem extractAuxF_fuel : ∀ (f g n : Nat) (s : List Char), s.length ≤ f → s.length ≤ g →
    extractAuxF f n s = extractAuxF g n s := by
  intro f
  induction f with
  | zero =>
    intro g n s hf _
    have : s = [] := List.length_eq_zero.mp (Nat.le_zero.mp hf)
    subst this
    cases g <;> rfl
  | succ f ih =>
    intro g n s hf hg
    cases s with
    | nil => cases g <;> rfl
    | cons c r =>
      cases g with
      | zero => simp at hg
      | succ g =>
        simp only [List.length_cons, Nat.succ_le_succ_iff] at hf hg
        by_cases hc : c = '&' ∧ r.takeWhile isAlnumAscii ≠ []
        · have hd : (r.dropWhile isAlnumAscii).length ≤ r.length := length_dropWhile_le _ _
          simp only [extractAuxF, if_pos hc]
          rw [ih g (n + 1) (r.dropWhile isAlnumAscii) (le_trans hd hf) (le_trans hd hg)]
        · simp only [extractAuxF, if_neg hc]
          rw [ih g n r hf hg]

theorem subFieldF_fuel (try1 : List Char → Option (List Char × List Char × List Char))
    (close : Char) (tr : List Char → List Char)
    (hlt : ∀ s x, try1 s = some x → x.2.2.length < s.length) :
    ∀ (f g : Nat) (s : List Char), s.length ≤ f → s.length ≤ g →
    subFieldF try1 close tr f s = subFieldF try1 close tr g s := by
  intro f
  induction f with
  | zero =>
    intro g n hf _
    have : n = [] := List.length_eq_zero.mp (Nat.le_zero.mp hf)
    subst this
    cases g <;> rfl
  | succ f ih =>
    intro g s hf hg
    cases s with
    | nil => cases g <;> rfl
    | cons c r =>
      cases g with
      | zero => simp at hg
      | succ g =>
        simp only [List.length_cons, Nat.succ_le_succ_iff] at hf hg
        cases htry : try1 (c :: r) with
        | none =>
          simp only [subFieldF, htry]
          rw [ih g r hf hg]
        | some x =>
          obtain ⟨g1, b, rest⟩ := x
          have hr := hlt _ _ htry
          simp only [List.length_cons] at hr
          simp only [subFieldF, htry]
          rw [ih g rest (by omega) (by omega)]

/-! ### Unfolding lemmas for the code extraction scan -/

theorem extractN_nil (n : Nat) : extractN n [] = ([], []) := rfl

theorem extractN_cons_nomatch {c : Char} {r : List Char}
    (hc : ¬(c = '&' ∧ r.takeWhile isAlnumAscii ≠ [])) (n : Nat) :
    extractN n (c :: r) = (c :: (extractN n r).1, (extractN n r).2) := by
  simp only [extractN, List.length_cons]
  simp only [extractAuxF, if_neg hc]

theorem extractN_words {w : List Char} (hw : w.all (fun c => !(c == '&')) = true)
    (n : Nat) (rest : List Char) :
    extractN n (w ++ rest) = (w ++ (extractN n rest).1, (extractN n rest).2) := by
  induction w with
  | nil => simp
  | cons a w ih =>
    simp only [List.all_cons, Bool.and_eq_true, Bool.not_eq_true', beq_eq_false_iff_ne] at hw
    have ha : ¬(a = '&' ∧ ((w ++ rest).takeWhile isAlnumAscii) ≠ []) := by
      intro h
      exact hw.1 h.1
    rw [List.cons_append, extractN_cons_nomatch ha n, ih hw.2]
    simp

theorem extractN_code {ds rest : List Char} (hds : ds ≠ [])
    (hall : ds.all isAlnumAscii = true) (hrest : headFails isAlnumAscii rest = true)
    (n : Nat) :
    extractN n ('&' :: (ds ++ rest)) =
      (placeholder n ++ (extractN (n + 1) rest).1,
        ('&' :: ds) :: (extractN (n + 1) rest).2) := by
  have hsplit := takeWhile_append_eq isAlnumAscii ds rest hall hrest
  have hc : ('&' : Char) = '&' ∧ ((ds ++ rest).takeWhile isAlnumAscii) ≠ [] := by
    refine ⟨rfl, ?_⟩
    rw [hsplit.1]
    exact hds
  simp only [extractN, List.length_cons, List.length_append]
  simp only [extractAuxF, if_pos hc]
  rw [hsplit.1, hsplit.2]
  rw [extractAuxF_fuel (ds.length + rest.length) rest.length (n + 1) rest
    (by omega) (Nat.le_refl _)]
  simp [hds]

/-! ### Lemmas about the placeholder-restoring loop -/

theorem placeholder_eq_cons (i : Nat) :
    placeholder i = '<' :: ('<' :: ('<' :: ((Nat.repr i).toList ++ ">>>".toList))) := rfl

theorem replaceFirst_nil_pat (new : List Char) : ∀ s, replaceFirst [] new s = new ++ s
  | [] => by simp [replaceFirst]
  | c :: r => by simp [replaceFirst]

theorem replaceFirst_cons_ne {old : List Char} {c : Char} {s : List Char}
    (h : old.isPrefixOf (c :: s) = false) (new : List Char) :
    replaceFirst old new (c :: s) = c :: replaceFirst old new s := by
  simp only [replaceFirst, h]
  simp

theorem replaceFirst_self (old new suf : List Char) :
    replaceFirst old new (old ++ suf) = new ++ suf := by
  cases old with
  | nil =>
    rw [List.nil_append]
    exact replaceFirst_nil_pat new suf
  | cons o os =>
    have hpre : (o :: os).isPrefixOf (o :: (os ++ suf)) = true :=
      isPrefixOf_append_self (o :: os) suf
    simp only [List.cons_append, replaceFirst, hpre, if_true]
    simp

theorem restoreAux_cons_ne {c : Char} (hc : c ≠ '<') :
    ∀ (cs : List (List Char)) (i : Nat) (s : List Char),
    restoreAux i cs (c :: s) = c :: restoreAux i cs s := by
  intro cs
  induction cs with
  | nil => intro i s; rfl
  | cons code cs ih =>
    intro i s
    have hlt : ('<' : Char) ≠ c := fun h => hc h.symm
    have hpre : (placeholder i).isPrefixOf (c :: s) = false := by
      rw [placeholder_eq_cons]
      simp only [List.isPrefixOf, Bool.and_eq_false_iff]
      left
      exact beq_eq_false_iff_ne.mpr hlt
    simp only [restoreAux, replaceFirst_cons_ne hpre, ih]

theorem restoreAux_append {w : List Char} (hw : '<' ∉ w) (cs : List (List Char))
    (i : Nat) (s : List Char) : restoreAux i cs (w ++ s) = w ++ restoreAux i cs s := by
  induction w with
  | nil => simp
  | cons a w ih =>
    have ha : a ≠ '<' := fun h => hw (h ▸ List.mem_cons_self _ _)
    have hw2 : '<' ∉ w := fun h => hw (List.mem_cons_of_mem _ h)
    rw [List.cons_append, restoreAux_cons_ne ha, ih hw2]
    rfl

theorem restoreAux_hit (i : Nat) (code : List Char) (cs : List (List Char))
    (s : List Char) :
    restoreAux i (code :: cs) (placeholder i ++ s) = restoreAux (i + 1) cs (code ++ s) := by
  simp only [restoreAux, replaceFirst_self]

/-! ### The extract/restore round trip on placeholder-free text -/

theorem restoreAux_extractN : ∀ (f : Nat) (t : List Char), t.length ≤ f → '<' ∉ t →
    ∀ (n : Nat), restoreAux n (extractN n t).2 (extractN n t).1 = t := by
  intro f
  induction f with
  | zero =>
    intro t ht _ n
    have : t = [] := List.length_eq_zero.mp (Nat.le_zero.mp ht)
    subst this
    rfl
  | succ f ih =>
    intro t ht hmem n
    cases t with
    | nil => rfl
    | cons c r =>
      simp only [List.length_cons, Nat.succ_le_succ_iff] at ht
      by_cases hc : c = '&' ∧ r.takeWhile isAlnumAscii ≠ []
      · obtain ⟨hc1, hc2⟩ := hc
        subst hc1
        have hsplit : r.takeWhile isAlnumAscii ++ r.dropWhile isAlnumAscii = r :=
          List.takeWhile_append_dropWhile isAlnumAscii r
        rw [← hsplit]
        rw [extractN_code hc2 (all_takeWhile _ _) (headFails_dropWhile _ _) n]
        rw [restoreAux_hit]
        have hnm : '<' ∉ ('&' :: r.takeWhile isAlnumAscii) := by
          intro hmem2
          rcases List.mem_cons.mp hmem2 with h | h
          · exact absurd h (by decide)
          · exact hmem (List.mem_cons_of_mem _ (mem_of_mem_takeWhile h))
        rw [List.cons_append, restoreAux_cons_ne (fun h => hnm (h ▸ List.mem_cons_self _ _)),
          restoreAux_append (fun h => hnm (List.mem_cons_of_mem _ h))]
        have hlen : (r.dropWhile isAlnumAscii).length ≤ f :=
          Nat.le_trans (length_dropWhile_le _ _) ht
        have hmem3 : '<' ∉ r.dropWhile isAlnumAscii :=
          fun h => hmem (List.mem_cons_of_mem _ (mem_of_mem_dropWhile h))
        rw [ih _ hlen hmem3 (n + 1)]
      · rw [extractN_cons_nomatch hc n]
        have hcne : c ≠ '<' := fun h => hmem (h ▸ List.mem_cons_self _ _)
        rw [restoreAux_cons_ne hcne]
        rw [ih r ht (fun h => hmem (List.mem_cons_of_mem _ h)) n]

theorem safe_translate_id {t : List Char} (h : '<' ∉ t) :
    safe_translate (fun s => s) t = t := by
  have hrt := restoreAux_extractN t.length t (Nat.le_refl _) h 1
  simp only [safe_translate, extract]
  exact hrt

/-! ### First-occurrence replacement at a designated position -/

theorem replaceFirst_at {pat : List Char} (new : List Char) :
    ∀ (pre suf : List Char), noHit pat pre (pat ++ suf) = true →
    replaceFirst pat new (pre ++ (pat ++ suf)) = pre ++ (new ++ suf) := by
  intro pre
  induction pre with
  | nil =>
    intro suf _
    rw [List.nil_append, List.nil_append]
    exact replaceFirst_self _ _ _
  | cons c p ih =>
    intro suf h
    simp only [noHit, Bool.and_eq_true, Bool.not_eq_true', List.append_eq] at h
    have h1 : pat.isPrefixOf (c :: (p ++ (pat ++ suf))) = false := h.1
    rw [List.cons_append, replaceFirst_cons_ne h1 new, ih suf h.2]
    rfl

theorem replaceFirst_not_occurs {pat : List Char} (new : List Char) :
    ∀ (s : List Char), occursB pat s = false → replaceFirst pat new s = s := by
  intro s
  induction s with
  | nil =>
    intro h
    simp only [occursB] at h
    simp [replaceFirst, h]
  | cons c r ih =>
    intro h
    simp only [occursB, Bool.or_eq_false_iff] at h
    rw [replaceFirst_cons_ne h.1 new, ih h.2]

/-! ### Lemmas about one `re.sub` field pass -/

theorem subField_cons_none {try1 : List Char → Option (List Char × List Char × List Char)}
    {c : Char} {r : List Char} (h : try1 (c :: r) = none) (close : Char)
    (tr : List Char → List Char) :
    subField try1 close tr (c :: r) = c :: subField try1 close tr r := by
  simp only [subField, List.length_cons]
  simp only [subFieldF, h]

theorem subField_cons_some {try1 : List Char → Option (List Char × List Char × List Char)}
    (hlt : ∀ s x, try1 s = some x → x.2.2.length < s.length)
    {c : Char} {r g1 b rest : List Char} (h : try1 (c :: r) = some (g1, b, rest))
    (close : Char) (tr : List Char → List Char) :
    subField try1 close tr (c :: r) = g1 ++ tr b ++ close :: subField try1 close tr rest := by
  have hr := hlt _ _ h
  simp only [List.length_cons] at hr
  simp only [subField, List.length_cons]
  simp only [subFieldF, h]
  rw [subFieldF_fuel try1 close tr hlt r.length rest.length rest (by omega) (Nat.le_refl _)]

theorem subField_id (try1 : List Char → Option (List Char × List Char × List Char))
    (close : Char) (tr : List Char → List Char) :
    ∀ s, cleanOf try1 s = true → subField try1 close tr s = s := by
  intro s
  induction s with
  | nil => intro _; rfl
  | cons c r ih =>
    intro h
    simp only [cleanOf, Bool.and_eq_true, Option.isNone_iff_eq_none] at h
    rw [subField_cons_none h.1, ih h.2]

theorem subField_skip (try1 : List Char → Option (List Char × List Char × List Char))
    (close : Char) (tr : List Char → List Char) :
    ∀ pre X, scanNone try1 pre X = true →
    subField try1 close tr (pre ++ X) = pre ++ subField try1 close tr X := by
  intro pre
  induction pre with
  | nil => intro X _; simp
  | cons c p ih =>
    intro X h
    simp only [scanNone, Bool.and_eq_true, Option.isNone_iff_eq_none, List.append_eq] at h
    have h1 : try1 (c :: (p ++ X)) = none := h.1
    rw [List.cons_append, subField_cons_none h1, ih X h.2]
    rfl

/-! ### Lemmas about the field-pattern matcher -/

theorem tryDelim_rest_lt {key : List Char} {opn close : Char} {bodyP : Char → Bool}
    {s : List Char} {x : List Char × List Char × List Char}
    (h : tryDelim key opn close bodyP s = some x) : x.2.2.length < s.length := by
  unfold tryDelim at h
  split at h
  · split at h
    next c s3 heq1 =>
      split at h
      · split at h
        next d rest heq2 =>
          split at h
          · have h1 : (s.drop key.length).length ≤ s.length := by
              rw [List.length_drop]
              omega
            have h2 := length_dropWhile_le isPySpace (s.drop key.length)
            rw [heq1] at h2
            have h3 := length_dropWhile_le bodyP s3
            rw [heq2] at h3
            simp only [List.length_cons] at h2 h3
            obtain rfl : (key ++ (s.drop key.length).takeWhile isPySpace ++ [opn],
                s3.takeWhile bodyP, rest) = x := Option.some.inj h
            simp only []
            omega
          · exact absurd h (by simp)
        next heq2 => exact absurd h (by simp)
      · exact absurd h (by simp)
    next heq1 => exact absurd h (by simp)
  · exact absurd h (by simp)

theorem tryDelim_at_head (key : List Char) (opn close : Char) (bodyP : Char → Bool)
    (ws b rest : List Char) (hws : ws.all isPySpace = true) (hopn : isPySpace opn = false)
    (hb : b.all bodyP = true) (hclose : bodyP close = false) :
    tryDelim key opn close bodyP (key ++ (ws ++ opn :: (b ++ close :: rest))) =
      some (key ++ ws ++ [opn], b, rest) := by
  have hpre := isPrefixOf_append_self key (ws ++ opn :: (b ++ close :: rest))
  have hdrop : (key ++ (ws ++ opn :: (b ++ close :: rest))).drop key.length
      = ws ++ opn :: (b ++ close :: rest) := by
    simp
  have hsp := takeWhile_append_eq isPySpace ws (opn :: (b ++ close :: rest)) hws
    (by simp [headFails, hopn])
  have hbd := takeWhile_append_eq bodyP b (close :: rest) hb
    (by simp [headFails, hclose])
  unfold tryDelim
  rw [hpre, hdrop, hsp.1, hsp.2]
  simp only [if_true]
  rw [hbd.1, hbd.2]
  simp

theorem tryQuoted_rest_lt (key : List Char) :
    ∀ s x, tryQuoted key s = some x → x.2.2.length < s.length :=
  fun _ _ h => tryDelim_rest_lt h

theorem tryBracket_rest_lt (key : List Char) :
    ∀ s x, tryBracket key s = some x → x.2.2.length < s.length :=
  fun _ _ h => tryDelim_rest_lt h

/-! ### Length facts about the whole-string replacement of line 102 -/

theorem replaceAllF_length_ge (old new : List Char) (hlen : old.length ≤ new.length) :
    ∀ (f : Nat) (s : List Char), s.length ≤ (replaceAllF old new f s).length := by
  intro f
  induction f with
  | zero =>
    intro s
    cases s with
    | nil => simp [replaceAllF]
    | cons c r => simp [replaceAllF]
  | succ f ih =>
    intro s
    cases s with
    | nil => simp [replaceAllF]
    | cons c r =>
      cases hg : (old.isPrefixOf (c :: r) && !old.isEmpty) with
      | true =>
        have hg2 := hg
        rw [Bool.and_eq_true] at hg2
        have hpre : old.isPrefixOf (c :: r) = true := hg2.1
        have hol : old.length ≤ (c :: r).length := isPrefixOf_length_le hpre
        have hdrop := ih ((c :: r).drop old.length)
        simp only [replaceAllF, hg, if_true, List.length_append, List.length_drop,
          List.length_cons] at *
        omega
      | false =>
        have hr := ih r
        simp only [replaceAllF, hg, Bool.false_eq_true, if_false, List.length_cons]
        omega

theorem replaceAllF_length_gt (old new : List Char) (hne : old ≠ [])
    (hlen : old.length < new.length) :
    ∀ (f : Nat) (s : List Char), s.length ≤ f → occursB old s = true →
    s.length < (replaceAllF old new f s).length := by
  intro f
  induction f with
  | zero =>
    intro s hf hocc
    have hs : s = [] := List.length_eq_zero.mp (Nat.le_zero.mp hf)
    subst hs
    cases old with
    | nil => exact absurd rfl hne
    | cons o os => simp [occursB, List.isPrefixOf] at hocc
  | succ f ih =>
    intro s hf hocc
    cases s with
    | nil =>
      cases old with
      | nil => exact absurd rfl hne
      | cons o os => simp [occursB, List.isPrefixOf] at hocc
    | cons c r =>
      simp only [List.length_cons, Nat.succ_le_succ_iff] at hf
      cases hg : (old.isPrefixOf (c :: r) && !old.isEmpty) with
      | true =>
        have hg2 := hg
        rw [Bool.and_eq_true] at hg2
        have hpre : old.isPrefixOf (c :: r) = true := hg2.1
        have hol : old.length ≤ (c :: r).length := isPrefixOf_length_le hpre
        have holpos : 0 < old.length := by
          cases old with
          | nil => exact absurd rfl hne
          | cons o os => simp
        have hdrop := replaceAllF_length_ge old new (Nat.le_of_lt hlen) f ((c :: r).drop old.length)
        simp only [replaceAllF, hg, if_true, List.length_append, List.length_drop,
          List.length_cons] at *
        omega
      | false =>
        have hne2 : (!old.isEmpty) = true := by
          cases old with
          | nil => exact absurd rfl hne
          | cons o os => rfl
        have hpre : old.isPrefixOf (c :: r) = false := by
          cases hb : old.isPrefixOf (c :: r) with
          | true => rw [hb, hne2] at hg; simp at hg
          | false => rfl
        have hoccr : occursB old r = true := by
          simp only [occursB, hpre, Bool.false_or] at hocc
          exact hocc
        have hr := ih r hf hoccr
        simp only [replaceAllF, hg, Bool.false_eq_true, if_false, List.length_cons]
        omega

/-! ### Extraction on code-free text -/

theorem extractN_no_codes : ∀ (t : List Char), hasCodeB t = false → ∀ n,
    extractN n t = (t, []) := by
  intro t
  induction t with
  | nil => intro _ _; rfl
  | cons c r ih =>
    intro h n
    simp only [hasCodeB, Bool.or_eq_false_iff, Bool.and_eq_false_iff] at h
    have hc : ¬(c = '&' ∧ r.takeWhile isAlnumAscii ≠ []) := by
      intro hand
      rcases h.1 with h1 | h1
      · rw [hand.1] at h1
        simp at h1
      · have hnil : r.takeWhile isAlnumAscii = [] := by
          simpa using h1
        exact hand.2 hnil
    rw [extractN_cons_nomatch hc n, ih h.2 n]

theorem subField_nil_text (try1 : List Char → Option (List Char × List Char × List Char))
    (close : Char) (tr : List Char → List Char) : subField try1 close tr [] = [] := rfl

theorem subField_some {try1 : List Char → Option (List Char × List Char × List Char)}
    (hlt : ∀ s x, try1 s = some x → x.2.2.length < s.length)
    {s g1 b rest : List Char} (h : try1 s = some (g1, b, rest)) (hne : s ≠ [])
    (close : Char) (tr : List Char → List Char) :
    subField try1 close tr s = g1 ++ tr b ++ close :: subField try1 close tr rest := by
  cases s with
  | nil => exact absurd rfl hne
  | cons c r => exact subField_cons_some hlt h close tr

theorem headFails_append_amp {w : List Char} (hw : headFails isAlnumAscii w = true)
    (r : List Char) : headFails isAlnumAscii (w ++ '&' :: r) = true := by
  cases w with
  | nil =>
    show (!(isAlnumAscii '&')) = true
    decide
  | cons a w2 => exact hw

theorem hasCodeB_no_amp : ∀ (w : List Char), w.all (fun c => !(c == '&')) = true →
    hasCodeB w = false := by
  intro w
  induction w with
  | nil => intro _; rfl
  | cons c r ih =>
    intro h
    simp only [List.all_cons, Bool.and_eq_true, Bool.not_eq_true', beq_eq_false_iff_ne] at h
    simp only [hasCodeB, Bool.or_eq_false_iff, Bool.and_eq_false_iff]
    constructor
    · left
      exact beq_eq_false_iff_ne.mpr h.1
    · apply ih
      simp only [List.all_eq_true]
      intro c2 hc2
      have := List.all_eq_true.mp h.2 c2 hc2
      exact this

/-! ### Identity translation makes every field pass the identity -/

theorem isPrefixOf_append_drop {l s : List Char} (h : l.isPrefixOf s = true) :
    s = l ++ s.drop l.length := by
  have hp : l <+: s := by simpa using h
  have ht : l = s.take l.length := List.prefix_iff_eq_take.mp hp
  conv_lhs => rw [← List.take_append_drop l.length s]
  rw [← ht]

theorem tryDelim_reconstruct {key : List Char} {opn close : Char} {bodyP : Char → Bool}
    {s g1 b rest : List Char}
    (h : tryDelim key opn close bodyP s = some (g1, b, rest)) :
    s = g1 ++ (b ++ close :: rest) := by
  unfold tryDelim at h
  split at h
  next hpre =>
    split at h
    next c s3 heq1 =>
      split at h
      next hc =>
        split at h
        next d rest2 heq2 =>
          split at h
          next hd =>
            simp only [Option.some.injEq, Prod.mk.injEq] at h
            obtain ⟨rfl, rfl, rfl⟩ := h
            rw [hc] at heq1
            rw [hd] at heq2
            have h0 := isPrefixOf_append_drop hpre
            have h1 := List.takeWhile_append_dropWhile isPySpace (s.drop key.length)
            have h2 := List.takeWhile_append_dropWhile bodyP s3
            rw [heq1] at h1
            rw [heq2] at h2
            calc s = key ++ s.drop key.length := h0
              _ = key ++ ((s.drop key.length).takeWhile isPySpace ++ (opn :: s3)) := by
                  rw [h1]
              _ = key ++ ((s.drop key.length).takeWhile isPySpace
                    ++ (opn :: (s3.takeWhile bodyP ++ close :: rest2))) := by
                  rw [h2]
              _ = (key ++ (s.drop key.length).takeWhile isPySpace ++ [opn])
                    ++ (s3.takeWhile bodyP ++ close :: rest2) := by
                  simp [List.append_assoc]
          next => exact absurd h (by simp)
        next => exact absurd h (by simp)
      next => exact absurd h (by simp)
    next => exact absurd h (by simp)
  next => exact absurd h (by simp)

theorem tryDelim_rest_lt_all (key : List Char) (opn close : Char) (bodyP : Char → Bool) :
    ∀ s x, tryDelim key opn close bodyP s = some x → x.2.2.length < s.length :=
  fun _ _ h => tryDelim_rest_lt h

theorem subField_delim_id (key : List Char) (opn close : Char) (bodyP : Char → Bool) :
    ∀ (f : Nat) (s : List Char), s.length ≤ f → '<' ∉ s →
    subField (tryDelim key opn close bodyP) close (safe_translate (fun x => x)) s = s := by
  intro f
  induction f with
  | zero =>
    intro s hf _
    have hs : s = [] := List.length_eq_zero.mp (Nat.le_zero.mp hf)
    subst hs
    rfl
  | succ f ih =>
    intro s hf hmem
    cases s with
    | nil => rfl
    | cons c r =>
      simp only [List.length_cons, Nat.succ_le_succ_iff] at hf
      cases htry : tryDelim key opn close bodyP (c :: r) with
      | none =>
        rw [subField_cons_none htry]
        rw [ih r hf (fun hx => hmem (List.mem_cons_of_mem _ hx))]
      | some x =>
        obtain ⟨g1, b, rest⟩ := x
        have hrec := tryDelim_reconstruct htry
        have hlt := tryDelim_rest_lt htry
        simp only [List.length_cons] at hlt
        rw [subField_cons_some (tryDelim_rest_lt_all key opn close bodyP) htry]
        have hmb : '<' ∉ b := by
          intro hb
          apply hmem
          rw [hrec]
          simp [hb]
        have hmr : '<' ∉ rest := by
          intro hb
          apply hmem
          rw [hrec]
          simp [hb]
        rw [safe_translate_id hmb]
        rw [ih rest (by omega) hmr]
        rw [hrec]
        simp [List.append_assoc]

theorem subField_quoted_id (key : List Char) (s : List Char) (h : '<' ∉ s) :
    subField (tryQuoted key) '"' (safe_translate (fun x => x)) s = s :=
  subField_delim_id key '"' '"' isBodyChar s.length s (Nat.le_refl _) h

theorem subField_bracket_id (key : List Char) (s : List Char) (h : '<' ∉ s) :
    subField (tryBracket key) ']' (safe_translate (fun x => x)) s = s :=
  subField_delim_id key '[' ']' isDescChar s.length s (Nat.le_refl _) h

theorem processContent_id (content : List Char) (h : '<' ∉ content) :
    processContent (fun s => s) content = content := by
  unfold processContent
  rw [subField_quoted_id titleKey content h]
  rw [subField_quoted_id subtitleKey content h]
  rw [subField_bracket_id descKey content h]

/-! ## Claim theorems -/

/-- Claim C2: the restore loop is positional and consuming.  For any two codes
`c1, c2` — in particular textually identical ones — and any translated text
splitting as `A ++ placeholder 1 ++ B ++ placeholder 2 ++ C` in which the
displayed occurrence of `placeholder i` is the first remaining one when the
loop reaches step `i`, the loop replaces the placeholder-1 occurrence with
`c1` and the placeholder-2 occurrence with `c2`, independently and never
conflating them. -/
theorem c2_restore_positional (c1 c2 A B C : List Char)
    (h1 : noHit (placeholder 1) A (placeholder 1 ++ (B ++ (placeholder 2 ++ C))) = true)
    (h2 : noHit (placeholder 2) (A ++ (c1 ++ B)) (placeholder 2 ++ C) = true) :
    restore (A ++ (placeholder 1 ++ (B ++ (placeholder 2 ++ C)))) [c1, c2]
      = A ++ (c1 ++ (B ++ (c2 ++ C))) := by
  unfold restore
  simp only [restoreAux]
  rw [replaceFirst_at c1 A (B ++ (placeholder 2 ++ C)) h1]
  have hsh : A ++ (c1 ++ (B ++ (placeholder 2 ++ C)))
      = (A ++ (c1 ++ B)) ++ (placeholder 2 ++ C) := by
    simp [List.append_assoc]
  rw [hsh, replaceFirst_at c2 (A ++ (c1 ++ B)) C h2]
  simp [List.append_assoc]

/-- Witness for C2: two textually identical codes `&4` are restored at their
own positions. -/
theorem c2_restore_positional_witness :
    noHit (placeholder 1) "x ".toList
        (placeholder 1 ++ (" y ".toList ++ (placeholder 2 ++ " z".toList))) = true
    ∧ noHit (placeholder 2) ("x ".toList ++ ("&4".toList ++ " y ".toList))
        (placeholder 2 ++ " z".toList) = true
    ∧ restore ("x ".toList ++ (placeholder 1 ++ (" y ".toList ++ (placeholder 2 ++ " z".toList))))
        ["&4".toList, "&4".toList]
      = "x ".toList ++ ("&4".toList ++ (" y ".toList ++ ("&4".toList ++ " z".toList))) :=
  ⟨by decide, by decide,
    c2_restore_positional "&4".toList "&4".toList "x ".toList " y ".toList " z".toList
      (by decide) (by decide)⟩

/-- Claim C8: restore degrades gracefully when a placeholder is missing.
With codes `c1, c2, c3` but placeholder 2 absent from the translated text,
the loop does not fail: `c2` is silently dropped, placeholders 1 and 3 are
still restored at their positions, and the rest of the text — including any
leftover unmatched placeholder text inside `C` — stays verbatim. -/
theorem c8_restore_missing_placeholder (c1 c2 c3 A B C : List Char)
    (h1 : noHit (placeholder 1) A (placeholder 1 ++ (B ++ (placeholder 3 ++ C))) = true)
    (h2 : occursB (placeholder 2) (A ++ (c1 ++ (B ++ (placeholder 3 ++ C)))) = false)
    (h3 : noHit (placeholder 3) (A ++ (c1 ++ B)) (placeholder 3 ++ C) = true) :
    restore (A ++ (placeholder 1 ++ (B ++ (placeholder 3 ++ C)))) [c1, c2, c3]
      = A ++ (c1 ++ (B ++ (c3 ++ C))) := by
  unfold restore
  simp only [restoreAux]
  rw [replaceFirst_at c1 A (B ++ (placeholder 3 ++ C)) h1]
  rw [replaceFirst_not_occurs c2 _ h2]
  have hsh : A ++ (c1 ++ (B ++ (placeholder 3 ++ C)))
      = (A ++ (c1 ++ B)) ++ (placeholder 3 ++ C) := by
    simp [List.append_assoc]
  rw [hsh, replaceFirst_at c3 (A ++ (c1 ++ B)) C h3]
  simp [List.append_assoc]

/-- Witness for C8: placeholder 2 dropped, placeholders 1 and 3 restored, a
leftover `<<<9>>>` in the tail kept verbatim. -/
theorem c8_restore_missing_placeholder_witness :
    noHit (placeholder 1) "a ".toList
        (placeholder 1 ++ (" b ".toList ++ (placeholder 3 ++ " c <<<9>>>".toList))) = true
    ∧ occursB (placeholder 2)
        ("a ".toList ++ ("&1".toList ++ (" b ".toList ++ (placeholder 3 ++ " c <<<9>>>".toList)))) = false
    ∧ noHit (placeholder 3) ("a ".toList ++ ("&1".toList ++ " b ".toList))
        (placeholder 3 ++ " c <<<9>>>".toList) = true
    ∧ restore ("a ".toList ++ (placeholder 1 ++ (" b ".toList ++ (placeholder 3 ++ " c <<<9>>>".toList))))
        ["&1".toList, "&2".toList, "&3".toList]
      = "a ".toList ++ ("&1".toList ++ (" b ".toList ++ ("&3".toList ++ " c <<<9>>>".toList))) :=
  ⟨by decide, by decide, by decide,
    c8_restore_missing_placeholder "&1".toList "&2".toList "&3".toList
      "a ".toList " b ".toList " c <<<9>>>".toList (by decide) (by decide) (by decide)⟩

/-- Claim C9: extraction is the identity on code-free text (the cleaned text
is the input and the code list is empty), and the restore loop with an empty
code list returns its input unchanged. -/
theorem c9_extract_identity_code_free (t s : List Char) (h : hasCodeB t = false) :
    extract t = (t, []) ∧ restore s [] = s :=
  ⟨extractN_no_codes t h 1, rfl⟩

/-- Witness for C9: a text whose only `&` is not followed by an alphanumeric
character has no codes, and restore with no codes is the identity. -/
theorem c9_extract_identity_code_free_witness :
    hasCodeB "hello &! world".toList = false
    ∧ (extract "hello &! world".toList = ("hello &! world".toList, [])
       ∧ restore "abc".toList [] = "abc".toList) :=
  ⟨by decide, c9_extract_identity_code_free "hello &! world".toList "abc".toList (by decide)⟩

/-- Claim C10: the translator-handle cache.  A hit returns the cached handle
with no construction; a miss constructs the handle, inserts it, keeps the
cache within 4 entries, and when the cache already holds 4 entries the
least-recently-used (last) entry is evicted. -/
theorem c10_translator_cache {α : Type} (mk : String → α) (cache : List (String × α))
    (lang : String) :
    (∀ v, List.lookup lang cache = some v →
        (get_translator mk cache lang).1 = v ∧ (get_translator mk cache lang).2.2 = false)
    ∧ (List.lookup lang cache = none →
        (get_translator mk cache lang).2.2 = true
        ∧ (get_translator mk cache lang).1 = mk lang
        ∧ (get_translator mk cache lang).2.1.length ≤ 4
        ∧ (cache.length = 4 →
            (get_translator mk cache lang).2.1 = (lang, mk lang) :: cache.take 3)) := by
  constructor
  · intro v hv
    simp [get_translator, hv]
  · intro hn
    refine ⟨?_, ?_, ?_, ?_⟩
    · simp [get_translator, hn]
    · simp [get_translator, hn]
    · simp only [get_translator, hn, List.length_take, List.length_cons]
      omega
    · intro h4
      simp only [get_translator, hn]
      rw [List.take_succ_cons]

/-- Witness for C10: a miss on a full 4-entry cache constructs, inserts in
front and evicts the least-recently-used entry; a hit returns the cached
value without constructing. -/
theorem c10_translator_cache_witness :
    (List.lookup "en" ([("ru", 2), ("de", 3), ("fr", 4), ("es", 5)] : List (String × Nat)) = none
     ∧ ((get_translator String.length [("ru", 2), ("de", 3), ("fr", 4), ("es", 5)] "en").2.2 = true
        ∧ (get_translator String.length [("ru", 2), ("de", 3), ("fr", 4), ("es", 5)] "en").1
            = String.length "en"
        ∧ (get_translator String.length [("ru", 2), ("de", 3), ("fr", 4), ("es", 5)] "en").2.1.length ≤ 4
        ∧ (([("ru", 2), ("de", 3), ("fr", 4), ("es", 5)] : List (String × Nat)).length = 4 →
            (get_translator String.length [("ru", 2), ("de", 3), ("fr", 4), ("es", 5)] "en").2.1
              = ("en", String.length "en") :: ([("ru", 2), ("de", 3), ("fr", 4), ("es", 5)] : List (String × Nat)).take 3)))
    ∧ (List.lookup "ru" ([("ru", 2), ("de", 3)] : List (String × Nat)) = some 2
       ∧ (get_translator String.length [("ru", 2), ("de", 3)] "ru").1 = 2
       ∧ (get_translator String.length [("ru", 2), ("de", 3)] "ru").2.2 = false) :=
  ⟨⟨by decide,
    (c10_translator_cache String.length [("ru", 2), ("de", 3), ("fr", 4), ("es", 5)] "en").2
      (by decide)⟩,
   ⟨by decide,
    (c10_translator_cache String.length [("ru", 2), ("de", 3)] "ru").1 2 (by decide)⟩⟩

/-- Counterexample to claim C6: the code replaces every occurrence of the
substring `chapters`, not only the first: a path with two `chapters` segments
has both renamed, which differs from the first-occurrence-only result the
claim describes. -/
theorem c6_counterexample :
    output_path "/quests/chapters/chapters/q1.snbt".toList
      = "/quests/chapters-translate/chapters-translate/q1.snbt".toList
    ∧ "/quests/chapters-translate/chapters-translate/q1.snbt".toList
      ≠ "/quests/chapters-translate/chapters/q1.snbt".toList :=
  ⟨by decide, by decide⟩

/-- Claim C6 (amended): the derived output path replaces every occurrence of
the substring `chapters` (not only the first, and also when it is not a whole
directory-name segment) with `chapters-translate`; on the spec's example path
with a single occurrence this gives the expected mirrored path. -/
theorem c6_output_path_replaces_all :
    output_path "/quests/chapters/ch1/q1.snbt".toList
      = "/quests/chapters-translate/ch1/q1.snbt".toList
    ∧ output_path "/quests/chapters/chapters/q1.snbt".toList
      = "/quests/chapters-translate/chapters-translate/q1.snbt".toList
    ∧ output_path "/a/mychaptersx/f.snbt".toList
      = "/a/mychapters-translatex/f.snbt".toList :=
  ⟨by decide, by decide, by decide⟩

/-- Counterexample to claim C7: for an input path without the substring
`chapters` the derived output path equals the input path, so the write lands
on the source file itself — the output path is not always distinct. -/
theorem c7_counterexample :
    output_path "/home/user/myquests/q1.snbt".toList = "/home/user/myquests/q1.snbt".toList := by
  decide

/-- Claim C7 (amended): the derived output path is distinct from the input
path whenever the input path contains the substring `chapters` (the
replacement strictly lengthens the path); when it does not, the derived path
equals the input and the file is overwritten in place. -/
theorem c7_output_distinct_of_chapters (p : List Char)
    (h : occursB chaptersTok p = true) : output_path p ≠ p := by
  intro heq
  have hgt := replaceAllF_length_gt chaptersTok chaptersTrTok (by decide) (by decide)
    p.length p (Nat.le_refl _) h
  unfold output_path replaceAll at heq
  rw [heq] at hgt
  exact Nat.lt_irrefl _ hgt

/-- Witness for C7 (amended): a path containing `chapters` maps to a path
different from itself. -/
theorem c7_output_distinct_of_chapters_witness :
    occursB chaptersTok "/x/chapters/a.snbt".toList = true
    ∧ output_path "/x/chapters/a.snbt".toList ≠ "/x/chapters/a.snbt".toList :=
  ⟨by decide, c7_output_distinct_of_chapters "/x/chapters/a.snbt".toList (by decide)⟩

/-- Claim C3: extraction preserves order and numbers placeholders
sequentially.  For codes `&ds1, &ds2, &ds3` appearing in that order between
arbitrary code-free words (words free of `&`, not starting with an
alphanumeric continuation of the preceding code), the ordered code list is
exactly those three codes in order of appearance, and the cleaned text
replaces the `n`-th match with the 1-indexed `placeholder n`. -/
theorem c3_extract_order (ds1 ds2 ds3 w0 w1 w2 w3 : List Char)
    (hd1 : ds1 ≠ []) (ha1 : ds1.all isAlnumAscii = true)
    (hd2 : ds2 ≠ []) (ha2 : ds2.all isAlnumAscii = true)
    (hd3 : ds3 ≠ []) (ha3 : ds3.all isAlnumAscii = true)
    (hw0 : w0.all (fun c => !(c == '&')) = true)
    (hw1 : w1.all (fun c => !(c == '&')) = true)
    (hw2 : w2.all (fun c => !(c == '&')) = true)
    (hw3 : w3.all (fun c => !(c == '&')) = true)
    (hh1 : headFails isAlnumAscii w1 = true)
    (hh2 : headFails isAlnumAscii w2 = true)
    (hh3 : headFails isAlnumAscii w3 = true) :
    extract (w0 ++ '&' :: (ds1 ++ (w1 ++ '&' :: (ds2 ++ (w2 ++ '&' :: (ds3 ++ w3))))))
      = (w0 ++ (placeholder 1 ++ (w1 ++ (placeholder 2 ++ (w2 ++ (placeholder 3 ++ w3))))),
         ['&' :: ds1, '&' :: ds2, '&' :: ds3]) := by
  unfold extract
  rw [extractN_words hw0]
  rw [extractN_code hd1 ha1 (headFails_append_amp hh1 _)]
  rw [extractN_words hw1]
  rw [extractN_code hd2 ha2 (headFails_append_amp hh2 _)]
  rw [extractN_words hw2]
  rw [extractN_code hd3 ha3 hh3]
  rw [extractN_no_codes w3 (hasCodeB_no_amp w3 hw3) 4]

/-- Witness for C3 on `Lorem &4 ipsum &e dolor &r sit`. -/
theorem c3_extract_order_witness :
    (['4'] : List Char) ≠ [] ∧ (['4'] : List Char).all isAlnumAscii = true
    ∧ (['e'] : List Char) ≠ [] ∧ (['e'] : List Char).all isAlnumAscii = true
    ∧ (['r'] : List Char) ≠ [] ∧ (['r'] : List Char).all isAlnumAscii = true
    ∧ "Lorem ".toList.all (fun c => !(c == '&')) = true
    ∧ " ipsum ".toList.all (fun c => !(c == '&')) = true
    ∧ " dolor ".toList.all (fun c => !(c == '&')) = true
    ∧ " sit".toList.all (fun c => !(c == '&')) = true
    ∧ headFails isAlnumAscii " ipsum ".toList = true
    ∧ headFails isAlnumAscii " dolor ".toList = true
    ∧ headFails isAlnumAscii " sit".toList = true
    ∧ extract ("Lorem ".toList ++ '&' :: (['4'] ++ (" ipsum ".toList ++ '&' :: (['e'] ++
        (" dolor ".toList ++ '&' :: (['r'] ++ " sit".toList))))))
      = ("Lorem ".toList ++ (placeholder 1 ++ (" ipsum ".toList ++ (placeholder 2 ++
          (" dolor ".toList ++ (placeholder 3 ++ " sit".toList))))),
         ['&' :: ['4'], '&' :: ['e'], '&' :: ['r']]) :=
  ⟨by decide, by decide, by decide, by decide, by decide, by decide, by decide,
   by decide, by decide, by decide, by decide, by decide, by decide,
   c3_extract_order ['4'] ['e'] ['r'] "Lorem ".toList " ipsum ".toList " dolor ".toList
     " sit".toList (by decide) (by decide) (by decide) (by decide) (by decide) (by decide)
     (by decide) (by decide) (by decide) (by decide) (by decide) (by decide) (by decide)⟩

/-- Claim C4: frame condition.  Each `re.sub` field pass preserves every byte
outside the matched bodies: for a text `pre ++ key ++ ws ++ open ++ body ++
close ++ post` where no match of the pattern starts inside `pre` and the
shown match is well formed, the pass keeps `pre`, the key, the whitespace and
both delimiters byte-for-byte, replaces only the captured body, and continues
scanning in `post`.  First conjunct: the quoted-field pass (title, subtitle);
second conjunct: the DOTALL description pass. -/
theorem c4_frame_condition (key : List Char) (tr : List Char → List Char)
    (pre ws body post : List Char) :
    (scanNone (tryQuoted key) pre (key ++ (ws ++ '"' :: (body ++ '"' :: post))) = true →
      ws.all isPySpace = true → body.all isBodyChar = true →
      subField (tryQuoted key) '"' tr (pre ++ (key ++ (ws ++ '"' :: (body ++ '"' :: post))))
        = pre ++ (key ++ (ws ++ '"' :: (tr body ++ '"' :: subField (tryQuoted key) '"' tr post))))
    ∧ (scanNone (tryBracket key) pre (key ++ (ws ++ '[' :: (body ++ ']' :: post))) = true →
      ws.all isPySpace = true → body.all isDescChar = true →
      subField (tryBracket key) ']' tr (pre ++ (key ++ (ws ++ '[' :: (body ++ ']' :: post))))
        = pre ++ (key ++ (ws ++ '[' :: (tr body ++ ']' :: subField (tryBracket key) ']' tr post)))) := by
  constructor
  · intro hscan hws hb
    rw [subField_skip _ _ _ pre _ hscan]
    have htry := tryDelim_at_head key '"' '"' isBodyChar ws body post hws (by decide) hb
      (by decide)
    rw [subField_some (tryQuoted_rest_lt key) htry (by simp)]
    simp [List.append_assoc]
  · intro hscan hws hb
    rw [subField_skip _ _ _ pre _ hscan]
    have htry := tryDelim_at_head key '[' ']' isDescChar ws body post hws (by decide) hb
      (by decide)
    rw [subField_some (tryBracket_rest_lt key) htry (by simp)]
    simp [List.append_assoc]

/-- Witness for C4: a title field inside surrounding lines, and a multi-line
description field, each rewritten in place with everything else intact. -/
theorem c4_frame_condition_witness :
    scanNone (tryQuoted titleKey) "id: 3\n  ".toList
        (titleKey ++ (" ".toList ++ '"' :: ("A &4B".toList ++ '"' :: "\nxp: 5".toList))) = true
    ∧ subField (tryQuoted titleKey) '"' (fun s => 'X' :: s)
        ("id: 3\n  ".toList ++ (titleKey ++ (" ".toList ++ '"' :: ("A &4B".toList ++ '"' :: "\nxp: 5".toList))))
      = "id: 3\n  ".toList ++ (titleKey ++ (" ".toList ++ '"' ::
          (('X' :: "A &4B".toList) ++ '"' :: subField (tryQuoted titleKey) '"' (fun s => 'X' :: s) "\nxp: 5".toList)))
    ∧ subField (tryBracket descKey) ']' (fun s => 'X' :: s)
        ("p\n".toList ++ (descKey ++ (" ".toList ++ '[' :: ("\"l1\",\n\"l2\"".toList ++ ']' :: "\nq".toList))))
      = "p\n".toList ++ (descKey ++ (" ".toList ++ '[' ::
          (('X' :: "\"l1\",\n\"l2\"".toList) ++ ']' :: subField (tryBracket descKey) ']' (fun s => 'X' :: s) "\nq".toList))) :=
  ⟨by decide,
   (c4_frame_condition titleKey (fun s => 'X' :: s) "id: 3\n  ".toList " ".toList
     "A &4B".toList "\nxp: 5".toList).1 (by decide) (by decide) (by decide),
   (c4_frame_condition descKey (fun s => 'X' :: s) "p\n".toList " ".toList
     "\"l1\",\n\"l2\"".toList "\nq".toList).2 (by decide) (by decide) (by decide)⟩

/-- Claim C1 (amended): round-trip losslessness under identity translation
holds for the spec's file `title: "A &4B"` and generally for any field body
containing no `<` character (so no placeholder-shaped text): restoring the
extracted codes into the cleaned text and reassembling the file yields output
equal to the input byte-for-byte — via `processContent_id`, every field pass
rewrites whatever body it captures back to itself on `<`-free text, even when
later passes also match.  The unrestricted claim fails on bodies that already
contain placeholder text (see the counterexample). -/
theorem c1_title_file_roundtrip (body : List Char) (h1 : '<' ∉ body) :
    processContent (fun s => s) (mkTitleFile body) = mkTitleFile body := by
  apply processContent_id
  intro hmem
  simp only [mkTitleFile, List.mem_append, List.mem_cons, List.not_mem_nil, or_false] at hmem
  rcases hmem with hk | hmem
  · exact absurd hk (by decide)
  rcases hmem with hsp | hmem
  · exact absurd hsp (by decide)
  rcases hmem with hq | hmem
  · exact absurd hq (by decide)
  rcases hmem with hbmem | hq2
  · exact h1 hbmem
  · exact absurd hq2 (by decide)

/-- Witness for C1 (amended) on the spec's own file `title: "A &4B"`. -/
theorem c1_title_file_roundtrip_witness :
    ('<' ∉ "A &4B".toList)
    ∧ processContent (fun s => s) (mkTitleFile "A &4B".toList) = mkTitleFile "A &4B".toList :=
  ⟨by decide, c1_title_file_roundtrip "A &4B".toList (by decide)⟩

/-- Counterexample to claim C1 as stated for general field bodies: for the
file `title: "<<<1>>> &a"` the identity-translation transform is not the
identity — during restoration the code `&a` lands on the pre-existing
`<<<1>>>` text of the body, so the output differs from the input. -/
theorem c1_counterexample :
    processContent (fun s => s) (mkTitleFile "<<<1>>> &a".toList)
      ≠ mkTitleFile "<<<1>>> &a".toList := by
  decide

/-- Counterexample to claim C5: the field patterns are not anchored to their
syntactic positions.  In `description: ["say title: ", "x"]` the substring
`title: ", "` inside the description body is matched and rewritten by the
title pass (stand-in translation prepends `X`), so the output differs from
the single description-field rewrite the claim requires. -/
theorem c5_counterexample :
    processContent (fun s => 'X' :: s) "description: [\"say title: \", \"x\"]".toList
      ≠ "description: [".toList
          ++ safe_translate (fun s => 'X' :: s) "\"say title: \", \"x\"".toList ++ [']'] := by
  decide

/-- Claim C5 (amended): each pattern is applied wherever its own syntax (key,
optional whitespace, delimiters, same-line closing quote) matches, including
inside other fields' bodies.  A `title:` substring inside a description body
is not rewritten when it is not followed by optional whitespace and a quote:
in `description: ["a title: b"]` the title and subtitle passes leave the file
unchanged and only the description body is rewritten, for every stand-in
translation. -/
theorem c5_description_only_when_not_quoted (tr : List Char → List Char) :
    processContent tr "description: [\"a title: b\"]".toList
      = "description: [".toList
          ++ safe_translate tr "\"a title: b\"".toList ++ [']'] := by
  unfold processContent
  rw [subField_id (tryQuoted titleKey) '"' (safe_translate tr) _ (by decide)]
  rw [subField_id (tryQuoted subtitleKey) '"' (safe_translate tr) _ (by decide)]
  have hfile : "description: [\"a title: b\"]".toList
      = descKey ++ ([' '] ++ '[' :: ("\"a title: b\"".toList ++ ']' :: [])) := by decide
  rw [hfile]
  have htry := tryDelim_at_head descKey '[' ']' isDescChar [' '] "\"a title: b\"".toList []
    (by decide) (by decide) (by decide) (by decide)
  rw [subField_some (tryBracket_rest_lt descKey) htry (by simp)]
  rw [subField_nil_text]
  have hpre2 : "description: [".toList = descKey ++ ([' '] ++ ['[']) := by decide
  rw [hpre2]
  simp [List.append_assoc]

end Quests
